import Mathlib

/-!
Verification development for the Expense Intelligence UAT repository.

The repository's algorithmic core is the GPay PDF statement pipeline in
OnlyPDF-Dev-Claude.py (segmentation is an external regex producing match
tuples; field parsing, noise filtering, deduplication, categorization and
table assembly are modelled here), plus the time parser
parse_time_to_hour from Dev-Expense-Tracker-app.py.

Strings are modelled as Lean Strings / lists of Chars, monetary amounts as
exact rationals, and the pandas DataFrame stages as lists of records.
-/

/-! ## Basic character/list utilities mirroring the Python string operations -/

/-- Whitespace set of Python's str.strip and the regex class \s (ASCII range). -/
def pws (c : Char) : Bool :=
  c == ' ' || c == '\t' || c == '\n' || c == '\r' || c == '\x0b' || c == '\x0c'

/-- Python str.strip(): drop whitespace from both ends. -/
def stripL (cs : List Char) : List Char :=
  ((cs.dropWhile pws).reverse.dropWhile pws).reverse

/-- Lowercase every character, as Python str.lower() on ASCII text. -/
def lowerL (cs : List Char) : List Char := cs.map Char.toLower

/-- Python str.replace(' ', ''): remove space characters only. -/
def despaceL (cs : List Char) : List Char := cs.filter (fun c => c != ' ')

/-- Word characters of the regex class \w: alphanumerics and underscore. -/
def wordCharB (c : Char) : Bool := c.isAlphanum || c == '_'

/-- Is the first list a prefix of the second (Boolean)? -/
def prefixAt : List Char → List Char → Bool
  | [], _ => true
  | _ :: _, [] => false
  | a :: as, b :: bs => a == b && prefixAt as bs

/-- Python's substring containment test `needle in hay`. -/
def containsSub (needle : List Char) : List Char → Bool
  | [] => needle.isEmpty
  | c :: t => prefixAt needle (c :: t) || containsSub needle t

/-- Split on a separator character, keeping empty fields (Python str.split(sep)). -/
def splitChAux (sep : Char) : List Char → List Char → List (List Char)
  | [], acc => [acc.reverse]
  | c :: t, acc =>
    if c == sep then acc.reverse :: splitChAux sep t [] else splitChAux sep t (c :: acc)

/-- Tokens separated by spaces, empties dropped (Python str.split() after
whitespace has been normalised to spaces). -/
def wordsOf (cs : List Char) : List (List Char) :=
  (splitChAux ' ' cs []).filter (fun w => !w.isEmpty)

/-- Replace each maximal whitespace run by a single space (re.sub of \s+ with a space). -/
def collapseAux : List Char → Bool → List Char
  | [], _ => []
  | c :: t, p =>
    if pws c then (if p then collapseAux t true else ' ' :: collapseAux t true)
    else c :: collapseAux t false

/-- Whitespace-run collapsing entry point. -/
def collapseWsL (cs : List Char) : List Char := collapseAux cs false

/-- Everything before the first occurrence of the pattern (Python s.split(pat)[0]). -/
def takeBefore (pat : List Char) : List Char → List Char
  | [] => []
  | c :: t => if prefixAt pat (c :: t) then [] else c :: takeBefore pat t

/-- All characters are decimal digits. -/
def allDigits (cs : List Char) : Bool := cs.all Char.isDigit

/-- Numeric value of a digit string. -/
def natOfDigits (cs : List Char) : ℕ := cs.foldl (fun n c => 10 * n + (c.toNat - 48)) 0

/-- Keep the first record for every key, dropping later records with a seen key. -/
def dedupGo {α κ : Type} [DecidableEq κ] (key : α → κ) (seen : List κ) : List α → List α
  | [] => []
  | x :: xs =>
    if key x ∈ seen then dedupGo key seen xs else x :: dedupGo key (key x :: seen) xs

/-- pandas drop_duplicates with keep-first semantics, the subset given as a key function. -/
def dedupKeepFirst {α κ : Type} [DecidableEq κ] (key : α → κ) (l : List α) : List α :=
  dedupGo key [] l

/-- Insert into a sorted list according to a Boolean comparison. -/
def insertB {α : Type} (le : α → α → Bool) (a : α) : List α → List α
  | [] => [a]
  | b :: bs => if le a b then a :: b :: bs else b :: insertB le a bs

/-- Insertion sort according to a Boolean comparison; models the pandas
sort_values step (any date-nondecreasing permutation is a faithful model,
since pandas leaves the order of equal keys unspecified). -/
def sortB {α : Type} (le : α → α → Bool) : List α → List α
  | [] => []
  | a :: as => insertB le a (sortB le as)

/-! ## The fuzzywuzzy scorer: fuzz.token_set_ratio with the python-Levenshtein
backend.  fuzz.ratio(a, b) = round(100 * (1 - dist/(|a|+|b|))) where dist is the
edit distance with substitution cost 2, i.e. |a|+|b| - 2*lcs(a, b); so the score
is the half-even rounding of 200*lcs/(|a|+|b|). -/

/-- Longest common subsequence length, fuelled so that it reduces in the kernel. -/
def lcsF : ℕ → List Char → List Char → ℕ
  | 0, _, _ => 0
  | _ + 1, [], _ => 0
  | _ + 1, _ :: _, [] => 0
  | f + 1, a :: as, b :: bs =>
    if a == b then lcsF f as bs + 1
    else max (lcsF f (a :: as) bs) (lcsF f as (b :: bs))

/-- Longest common subsequence length of two character lists. -/
def lcs (x y : List Char) : ℕ := lcsF (x.length + y.length) x y

/-- Round-half-even of the rational n/d, as Python round() on an exact value. -/
def rhe (n d : ℕ) : ℕ :=
  let q := n / d
  let r := n % d
  if 2 * r < d then q
  else if d < 2 * r then q + 1
  else if q % 2 = 0 then q else q + 1

/-- Levenshtein.ratio scaled to 0..100 (two empty strings score 100). -/
def lvScore (a b : List Char) : ℕ :=
  if a.isEmpty && b.isEmpty then 100
  else rhe (200 * lcs a b) (a.length + b.length)

/-- fuzzywuzzy utils.full_process: keep word characters, lowercase, strip. -/
def fullProcess (s : String) : List Char :=
  stripL (lowerL (s.toList.map (fun c => if wordCharB c then c else ' ')))

/-- Lexicographic comparison of character lists by code point, as Python sorted(). -/
def charsLe : List Char → List Char → Bool
  | [], _ => true
  | _ :: _, [] => false
  | a :: as, b :: bs =>
    if a.toNat < b.toNat then true
    else if b.toNat < a.toNat then false
    else charsLe as bs

/-- Join tokens with single spaces (Python " ".join). -/
def joinTok : List (List Char) → List Char
  | [] => []
  | [t] => t
  | t :: ts => t ++ ' ' :: joinTok ts

/-- fuzz.token_set_ratio: token sets of both processed strings, the sorted
intersection and the sorted differences are joined and compared pairwise with
the Levenshtein ratio; the maximum of the three ratios is the score. -/
def token_set_score (s1 s2 : String) : ℕ :=
  let p1 := fullProcess s1
  let p2 := fullProcess s2
  if p1.isEmpty || p2.isEmpty then 0
  else
    let t1 := dedupKeepFirst (fun w => w) (wordsOf p1)
    let t2 := dedupKeepFirst (fun w => w) (wordsOf p2)
    let inter := sortB charsLe (t1.filter (fun w => decide (w ∈ t2)))
    let d12 := sortB charsLe (t1.filter (fun w => decide (w ∉ t2)))
    let d21 := sortB charsLe (t2.filter (fun w => decide (w ∉ t1)))
    let s0 := joinTok inter
    let c12 := stripL (s0 ++ ' ' :: joinTok d12)
    let c21 := stripL (s0 ++ ' ' :: joinTok d21)
    let s0s := stripL s0
    max (lvScore s0s c12) (max (lvScore s0s c21) (lvScore c12 c21))

/-! ## The merchant rules table and categorize_transaction -/

/-- One row of the logic sheet; a missing column is modelled as none
(pandas row.get with a default). -/
structure MerchantRule where
  merchant : Option String
  category : Option String
  subcategory : Option String
deriving DecidableEq

/-- str(row.get(Merchant, empty)).strip().lower() as in categorize_transaction. -/
def merchantOf (r : MerchantRule) : String :=
  (lowerL (stripL (r.merchant.getD "").toList)).asString

/-- One step of the best-match scan: skip empty merchants, otherwise keep the
strictly larger score (first maximiser wins). -/
def bestStep (desc : String) (b : ℕ × Option MerchantRule) (r : MerchantRule) :
    ℕ × Option MerchantRule :=
  let mer := merchantOf r
  if mer = "" then b
  else
    let sc := token_set_score desc mer
    if b.1 < sc then (sc, some r) else b

/-- The scan over the table computing best_match_score and best_match_row. -/
def bestMatch (desc : String) (rules : List MerchantRule) : ℕ × Option MerchantRule :=
  rules.foldl (bestStep desc) (0, none)

/-- Transport keyword list of the fallback heuristics. -/
def transport_keywords : List String :=
  ["rapido", "auto", "ola", "uber", "metro", "mmrda", "railway", "irctc", "train", "bus"]

/-- Fallback branch of categorize_transaction: small-fare range or transport
keyword, with metro/railway refinement, else the Misc sentinel. -/
def fallbackCategory (description : String) (amount : ℚ) : String × String :=
  let dl := lowerL description.toList
  if (decide ((15 : ℚ) ≤ amount) && decide (amount ≤ (50 : ℚ)))
      || transport_keywords.any (fun kw => containsSub kw.toList dl) then
    if (["metro", "mmrda"] : List String).any (fun kw => containsSub kw.toList dl) then
      ("Transport", "Metro")
    else if (["railway", "irctc", "train"] : List String).any
        (fun kw => containsSub kw.toList dl) then
      ("Transport", "Train")
    else ("Transport", "Auto")
  else ("Misc", "Yet to Name")

/-- categorize_transaction from OnlyPDF-Dev-Claude.py lines 115-154: fuzzy
best-match against the rules table at threshold 70, else the fallback rules. -/
def categorize_transaction (description : String) (amount : ℚ)
    (logic_rules : List MerchantRule) : String × String :=
  if logic_rules.isEmpty then fallbackCategory description amount
  else
    let b := bestMatch (lowerL description.toList).asString logic_rules
    if 70 ≤ b.1 then
      match b.2 with
      | some row => (row.category.getD "Misc", row.subcategory.getD "Yet to Name")
      | none => fallbackCategory description amount
    else fallbackCategory description amount

/-! ## The PDF extraction pipeline (OnlyPDF-Dev-Claude.py) -/

/-- Calendar date produced by the date parse (day-month-year resolution). -/
structure EDate where
  year : ℕ
  month : ℕ
  day : ℕ
deriving DecidableEq

/-- Numeric key realising datetime ordering on parsed dates. -/
def dateKey (d : EDate) : ℕ := d.year * 10000 + d.month * 100 + d.day

/-- Transaction direction as recorded in the Type column. -/
inductive TType
  | Sent
  | Received
deriving DecidableEq

/-- One record appended by extract_gpay_transactions_from_pdf (lines 90-97). -/
structure Txn where
  date : EDate
  description : String
  amount : ℚ
  ttype : TType
  transaction_id : String
  bank : String
deriving DecidableEq

/-- One tuple of the re.findall at line 50: the six captured groups
(date, direction marker, raw description, amount text, UPI id digits,
optional bank tail; an unmatched optional group is the empty string). -/
structure GMatch where
  date_str : String
  type_str : String
  description_raw : String
  amount_str : String
  trans_id : String
  bank_raw : String
deriving DecidableEq

/-- Month abbreviation table of strptime %b (lowercased). -/
def monthAbbrevs : List (String × ℕ) :=
  [("jan", 1), ("feb", 2), ("mar", 3), ("apr", 4), ("may", 5), ("jun", 6),
   ("jul", 7), ("aug", 8), ("sep", 9), ("oct", 10), ("nov", 11), ("dec", 12)]

/-- Month number of a lowercased token, none when it is not an abbreviation. -/
def monthNum (cs : List Char) : Option ℕ := monthAbbrevs.lookup cs.asString

/-- Days in a month with the Gregorian leap rule, as datetime validation. -/
def daysInMonth (y m : ℕ) : ℕ :=
  if m = 2 then (if y % 4 = 0 ∧ (y % 100 ≠ 0 ∨ y % 400 = 0) then 29 else 28)
  else if m = 4 ∨ m = 6 ∨ m = 9 ∨ m = 11 then 30 else 31

/-- Date cleaning of lines 62-63: non-word characters to spaces, strip,
collapse whitespace runs. -/
def cleanDate (s : String) : List Char :=
  collapseWsL (stripL (s.toList.map (fun c => if wordCharB c then c else ' ')))

/-- datetime.strptime with format day, abbreviated month, 4-digit year:
the day group accepts 1-31 written with one or two digits, the year exactly
four digits, and datetime validates the day against the month length. -/
def strptimeDMY (cs : List Char) : Option EDate :=
  match wordsOf cs with
  | [d, mth, y] =>
    if ((d.length = 1 ∨ d.length = 2) ∧ allDigits d
        ∧ 1 ≤ natOfDigits d ∧ natOfDigits d ≤ 31
        ∧ y.length = 4 ∧ allDigits y : Prop) then
      match monthNum (lowerL mth) with
      | some mo =>
        if (1 ≤ natOfDigits y ∧ natOfDigits d ≤ daysInMonth (natOfDigits y) mo : Prop) then
          some ⟨natOfDigits y, mo, natOfDigits d⟩
        else none
      | none => none
    else none
  | _ => none

/-- float() applied to the comma-stripped amount text: digits with an optional
decimal point (the regex group admits only digits, commas and one dot). -/
def parseAmount (s : String) : Option ℚ :=
  let cs := stripL (s.toList.filter (fun c => c != ','))
  match splitChAux '.' cs [] with
  | [ip] => if !ip.isEmpty && allDigits ip then some ((natOfDigits ip : ℚ)) else none
  | [ip, fp] =>
    if allDigits ip && allDigits fp && !(ip.isEmpty && fp.isEmpty) then
      if fp.isEmpty then some ((natOfDigits ip : ℚ))
      else some ((natOfDigits ip : ℚ) + (natOfDigits fp : ℚ) / ((10 : ℚ) ^ fp.length))
    else none
  | _ => none

/-- The direction test of line 85: the lowered marker contains received. -/
def typeIsReceived (ts : String) : Bool :=
  containsSub ("received".toList) (lowerL ts.toList)

/-- Promotional/reward sentinels of line 81. -/
def skip_keywords : List String :=
  ["google pay rewards", "googlepayrewards", "better luck next time"]

/-- Field parsing and noise filtering for one regex match (lines 55-97):
self-transfer check, date parse, amount parse and positivity filter,
description cleanup with length and reward filters, direction and bank. -/
def processMatch (m : GMatch) : Option Txn :=
  let full_check := despaceL (lowerL (m.type_str ++ " " ++ m.description_raw).toList)
  if containsSub ("selftransfer".toList) full_check then none
  else
    match strptimeDMY (cleanDate m.date_str) with
    | none => none
    | some date =>
      match parseAmount m.amount_str with
      | none => none
      | some amount =>
        if amount ≤ 0 then none
        else
          let d1 := stripL m.description_raw.toList
          let desc := collapseWsL (stripL (takeBefore ("UPI Transaction".toList) d1))
          if desc.length < 2 then none
          else if skip_keywords.any
              (fun kw => containsSub kw.toList (despaceL (lowerL desc))) then none
          else
            some { date := date
                   description := desc.asString
                   amount := amount
                   ttype := if typeIsReceived m.type_str then TType.Received else TType.Sent
                   transaction_id := m.trans_id
                   bank := if m.bank_raw = "" then "Unknown"
                           else (stripL m.bank_raw.toList).asString }

/-- Date-ascending comparison used by sort_values on the Date column. -/
def txnLeb (a b : Txn) : Bool := decide (dateKey a.date ≤ dateKey b.date)

/-- drop_duplicates on the Transaction ID column (lines 106 and 175-176). -/
def dedupById (ts : List Txn) : List Txn :=
  dedupKeepFirst (fun t => t.transaction_id) ts

/-- drop_duplicates on Date, Description and Amount: the composite-key branch
of line 108, taken only when the Transaction ID column is absent. -/
def dedupByComposite (ts : List Txn) : List Txn :=
  dedupKeepFirst (fun t => (t.date, t.description, t.amount)) ts

/-- extract_gpay_transactions_from_pdf, lines 54-112, as a function of the
findall match list: parse and filter each match, then deduplicate and sort by
date.  Every appended record carries the Transaction ID key, so for a nonempty
frame the id column exists and the id branch of the dedup is the one taken. -/
def extract_gpay_transactions_from_pdf (ms : List GMatch) : List Txn :=
  let ts := ms.filterMap processMatch
  if ts.isEmpty then ts
  else sortB txnLeb (dedupById ts)

/-- Categorization step of process_pdf_data lines 181-192: Received rows get
the Income/Received pair unconditionally, Sent rows go through
categorize_transaction. -/
def assignCategory (t : Txn) (rules : List MerchantRule) : String × String :=
  if t.ttype = TType.Received then ("Income", "Received")
  else categorize_transaction t.description t.amount rules

/-- Final row of the returned expense frame: the Type column is dropped at
line 195 and no time column is ever extracted. -/
structure ExpenseRow where
  date : EDate
  description : String
  amount : ℚ
  transaction_id : String
  bank : String
  category : String
  sub_category : String
deriving DecidableEq

/-- Assembly of one output row from a transaction and its category pair. -/
def toExpenseRow (t : Txn) (c : String × String) : ExpenseRow :=
  { date := t.date, description := t.description, amount := t.amount,
    transaction_id := t.transaction_id, bank := t.bank,
    category := c.1, sub_category := c.2 }

/-- pd.concat of the per-document nonempty frames (lines 159-173). -/
def combineDocs (docs : List (List GMatch)) : List Txn :=
  ((docs.map extract_gpay_transactions_from_pdf).filter (fun df => !df.isEmpty)).flatten

/-- process_pdf_data, lines 157-197: per-document extraction, concatenation,
cross-document dedup by Transaction ID, categorization, and restriction to the
Sent rows with the Type column dropped.  No global re-sort is performed. -/
def process_pdf_data (docs : List (List GMatch)) (rules : List MerchantRule) :
    List ExpenseRow :=
  if ((docs.map extract_gpay_transactions_from_pdf).filter (fun df => !df.isEmpty)).isEmpty
  then []
  else
    let combined := dedupById (combineDocs docs)
    ((combined.map (fun t => (t, assignCategory t rules))).filter
        (fun p => decide (p.1.ttype = TType.Sent))).map
      (fun p => toExpenseRow p.1 p.2)

/-- Boolean date-ascending check on a key list. -/
def sortedKeys : List ℕ → Bool
  | [] => true
  | [_] => true
  | a :: b :: t => decide (a ≤ b) && sortedKeys (b :: t)

/-- Date-ascending check on an output table. -/
def rowsSorted (rs : List ExpenseRow) : Bool :=
  sortedKeys (rs.map (fun r => dateKey r.date))

/-! ## parse_time_to_hour (Dev-Expense-Tracker-app.py lines 544-569) -/

/-- Anchored match of the shared time prefix: one or two digit hour, colon,
two digit minutes; greedy two-digit hour first, with the regex backtracking
to a one-digit hour only when the second character is the colon. -/
def hmParse (cs : List Char) : Option (ℕ × List Char) :=
  match cs with
  | c1 :: c2 :: c3 :: c4 :: c5 :: rest =>
    if c1.isDigit && c2.isDigit && c3 == ':' && c4.isDigit && c5.isDigit then
      some (10 * (c1.toNat - 48) + (c2.toNat - 48), rest)
    else if c1.isDigit && c2 == ':' && c3.isDigit && c4.isDigit then
      some (c1.toNat - 48, c5 :: rest)
    else none
  | [c1, c2, c3, c4] =>
    if c1.isDigit && c2 == ':' && c3.isDigit && c4.isDigit then
      some (c1.toNat - 48, [])
    else none
  | _ => none

/-- The optional seconds group: candidate remainders in greedy order
(seconds consumed first, then the ungreedy alternative). -/
def afterSecs (rest : List Char) : List (List Char) :=
  match rest with
  | ':' :: d1 :: d2 :: r => if d1.isDigit && d2.isDigit then [r, rest] else [rest]
  | _ => [rest]

/-- The meridiem marker after optional whitespace; true means PM. -/
def meridiemAt (cs : List Char) : Option Bool :=
  match cs.dropWhile pws with
  | 'A' :: 'M' :: _ => some false
  | 'P' :: 'M' :: _ => some true
  | _ => none

/-- First candidate remainder carrying a meridiem marker. -/
def firstMeridiem : List (List Char) → Option Bool
  | [] => none
  | r :: rs =>
    match meridiemAt r with
    | some b => some b
    | none => firstMeridiem rs

/-- parse_time_to_hour: NaN gives noon; the input is stripped and uppercased;
an anchored hour:minute token with a meridiem marker applies the 12-hour
mapping, without one it is accepted as 24-hour only for hours up to 23; in
every other case the result is noon. -/
def parse_time_to_hour (time_val : Option String) : ℕ :=
  match time_val with
  | none => 12
  | some s =>
    let ts := (stripL s.toList).map Char.toUpper
    match hmParse ts with
    | some (h, rest) =>
      match firstMeridiem (afterSecs rest) with
      | some true => if h ≠ 12 then h + 12 else h
      | some false => if h = 12 then 0 else h
      | none => if h ≤ 23 then h else 12
    | none => 12

/-- The self-transfer direction marker as written with space characters (or
none): lowering the marker and removing spaces yields exactly this word.
This is the marker shape that the skip check of line 58 actually catches;
the regex alternative also admits other whitespace (newlines, tabs) inside
the marker, and those characters survive the replace of spaces, so such
marker forms do not satisfy this predicate and escape the check. -/
def selfTransferMark (m : GMatch) : Prop :=
  despaceL (lowerL m.type_str.toList) = ("selftransferto".toList)

/-- Shape of the UPI Transaction ID capture group of line 50: one or more
digit characters. -/
def idGroupOK (s : String) : Bool := !s.toList.isEmpty && allDigits s.toList

/-! ## Helper lemmas -/

theorem dedupGo_sublist {α κ : Type} [DecidableEq κ] (key : α → κ) :
    ∀ (l : List α) (seen : List κ), List.Sublist (dedupGo key seen l) l := by
  intro l
  induction l with
  | nil => intro seen; simp [dedupGo]
  | cons x xs ih =>
    intro seen
    simp only [dedupGo]
    split
    · exact (ih seen).cons x
    · exact (ih (key x :: seen)).cons₂ x

theorem dedupGo_filter {α κ : Type} [DecidableEq κ] (key : α → κ) (k : κ) :
    ∀ (l : List α) (seen : List κ),
      (dedupGo key seen l).filter (fun x => decide (key x = k))
        = if k ∈ seen then [] else (l.filter (fun x => decide (key x = k))).take 1 := by
  intro l
  induction l with
  | nil => intro seen; split <;> simp [dedupGo]
  | cons x xs ih =>
    intro seen
    simp only [dedupGo]
    by_cases hx : key x ∈ seen
    · rw [if_pos hx, ih]
      by_cases hk : k ∈ seen
      · simp [hk]
      · have hne : ¬ (key x = k) := fun h => hk (h ▸ hx)
        rw [if_neg hk, if_neg hk]
        simp [List.filter_cons, hne]
    · rw [if_neg hx]
      by_cases hxk : key x = k
      · subst hxk
        rw [if_neg hx]
        rw [List.filter_cons, List.filter_cons]
        simp only [decide_eq_true_eq]
        rw [if_pos trivial, if_pos trivial]
        rw [ih, if_pos (List.mem_cons_self _ _)]
        simp
      · rw [List.filter_cons, if_neg (by simpa using hxk), ih]
        have hmem : (k ∈ key x :: seen) ↔ k ∈ seen := by
          rw [List.mem_cons]
          constructor
          · intro hc
            rcases hc with hc | hc
            · exact absurd hc.symm hxk
            · exact hc
          · intro hc
            exact Or.inr hc
        by_cases hk : k ∈ seen
        · rw [if_pos (hmem.mpr hk), if_pos hk]
        · rw [if_neg (fun hc => hk (hmem.mp hc)), if_neg hk]
          rw [List.filter_cons, if_neg (by simpa using hxk)]

theorem mem_insertB {α : Type} (le : α → α → Bool) (a : α) :
    ∀ (l : List α) (y : α), y ∈ insertB le a l ↔ y = a ∨ y ∈ l := by
  intro l
  induction l with
  | nil => intro y; simp [insertB]
  | cons b bs ih =>
    intro y
    simp only [insertB]
    split
    · simp [List.mem_cons]
    · simp only [List.mem_cons, ih]
      tauto

theorem pairwise_insertB {α : Type} (le : α → α → Bool)
    (htot : ∀ a b, le a b = true ∨ le b a = true)
    (htr : ∀ a b c, le a b = true → le b c = true → le a c = true)
    (a : α) : ∀ (l : List α), l.Pairwise (fun x y => le x y = true) →
      (insertB le a l).Pairwise (fun x y => le x y = true) := by
  intro l
  induction l with
  | nil => intro _; simp [insertB]
  | cons b bs ih =>
    intro h
    rw [List.pairwise_cons] at h
    obtain ⟨hb, hbs⟩ := h
    simp only [insertB]
    by_cases hab : le a b = true
    · rw [if_pos hab]
      refine List.Pairwise.cons ?_ (List.Pairwise.cons hb hbs)
      intro y hy
      rcases List.mem_cons.mp hy with rfl | hy2
      · exact hab
      · exact htr a b y hab (hb y hy2)
    · rw [if_neg hab]
      have hba : le b a = true := (htot a b).resolve_left hab
      refine List.Pairwise.cons ?_ (ih hbs)
      intro y hy
      rcases (mem_insertB le a bs y).mp hy with rfl | hy2
      · exact hba
      · exact hb y hy2

theorem pairwise_sortB {α : Type} (le : α → α → Bool)
    (htot : ∀ a b, le a b = true ∨ le b a = true)
    (htr : ∀ a b c, le a b = true → le b c = true → le a c = true) :
    ∀ (l : List α), (sortB le l).Pairwise (fun x y => le x y = true) := by
  intro l
  induction l with
  | nil => simp [sortB]
  | cons a as ih => exact pairwise_insertB le htot htr a _ ih

theorem mem_sortB {α : Type} (le : α → α → Bool) :
    ∀ (l : List α) (y : α), y ∈ sortB le l ↔ y ∈ l := by
  intro l
  induction l with
  | nil => intro y; simp [sortB]
  | cons a as ih =>
    intro y
    simp only [sortB, mem_insertB, ih, List.mem_cons]

theorem sortedKeys_of_pairwise :
    ∀ (l : List ℕ), l.Pairwise (fun a b => a ≤ b) → sortedKeys l = true := by
  intro l
  induction l with
  | nil => intro _; rfl
  | cons a t ih =>
    intro h
    rw [List.pairwise_cons] at h
    obtain ⟨ha, ht⟩ := h
    cases t with
    | nil => rfl
    | cons b t2 =>
      simp only [sortedKeys, Bool.and_eq_true, decide_eq_true_eq]
      exact ⟨ha b (List.mem_cons_self _ _), ih ht⟩

theorem lcsF_le_left : ∀ (f : ℕ) (x y : List Char), lcsF f x y ≤ x.length := by
  intro f
  induction f with
  | zero => intro x y; simp [lcsF]
  | succ f ih =>
    intro x y
    cases x with
    | nil => simp [lcsF]
    | cons a as =>
      cases y with
      | nil => simp [lcsF]
      | cons b bs =>
        simp only [lcsF, List.length_cons]
        split
        · have := ih as bs
          omega
        · have h1 := ih (a :: as) bs
          have h2 := ih as (b :: bs)
          simp only [List.length_cons] at h1
          omega

theorem lcsF_le_right : ∀ (f : ℕ) (x y : List Char), lcsF f x y ≤ y.length := by
  intro f
  induction f with
  | zero => intro x y; simp [lcsF]
  | succ f ih =>
    intro x y
    cases x with
    | nil => simp [lcsF]
    | cons a as =>
      cases y with
      | nil => simp [lcsF]
      | cons b bs =>
        simp only [lcsF, List.length_cons]
        split
        · have := ih as bs
          omega
        · have h1 := ih (a :: as) bs
          have h2 := ih as (b :: bs)
          simp only [List.length_cons] at h2
          omega

theorem rhe_le (n d k : ℕ) (hd : 0 < d) (h : n ≤ k * d) : rhe n d ≤ k := by
  have hq : n / d ≤ k := by
    have h2 := Nat.div_le_div_right (c := d) h
    rwa [Nat.mul_div_cancel _ hd] at h2
  have hqlt : 0 < n % d → n / d < k := by
    intro hr
    rcases lt_or_eq_of_le hq with hlt | heq
    · exact hlt
    · exfalso
      have e1 := Nat.div_add_mod n d
      rw [heq] at e1
      have e2 : d * k = k * d := Nat.mul_comm d k
      omega
  unfold rhe
  simp only []
  split
  · exact hq
  · split
    · have := hqlt (by omega)
      omega
    · split
      · exact hq
      · have hr : 0 < n % d := by omega
        have := hqlt hr
        omega

theorem lvScore_le_100 (a b : List Char) : lvScore a b ≤ 100 := by
  unfold lvScore
  split
  · exact le_refl _
  · rename_i hne
    have hd : 0 < a.length + b.length := by
      cases a with
      | nil =>
        cases b with
        | nil => simp [List.isEmpty] at hne
        | cons y ys => simp
      | cons x xs => simp
    apply rhe_le _ _ _ hd
    have h1 : lcs a b ≤ a.length := lcsF_le_left _ _ _
    have h2 : lcs a b ≤ b.length := lcsF_le_right _ _ _
    omega

theorem token_set_score_le_100 (s1 s2 : String) : token_set_score s1 s2 ≤ 100 := by
  simp only [token_set_score]
  split
  · omega
  · exact max_le (lvScore_le_100 _ _) (max_le (lvScore_le_100 _ _) (lvScore_le_100 _ _))

theorem bestStep_fst_le (desc : String) (b : ℕ × Option MerchantRule) (r : MerchantRule) :
    b.1 ≤ (bestStep desc b r).1 := by
  simp only [bestStep]
  split
  · exact le_refl _
  · split
    · rename_i hlt
      exact le_of_lt hlt
    · exact le_refl _

theorem foldl_bestStep_fst_le (desc : String) :
    ∀ (l : List MerchantRule) (b : ℕ × Option MerchantRule),
      b.1 ≤ (l.foldl (bestStep desc) b).1 := by
  intro l
  induction l with
  | nil => intro b; exact le_refl _
  | cons r t ih =>
    intro b
    exact le_trans (bestStep_fst_le desc b r) (ih (bestStep desc b r))

theorem foldl_bestStep_score_le (desc : String) :
    ∀ (l : List MerchantRule) (b : ℕ × Option MerchantRule) (r : MerchantRule),
      r ∈ l → merchantOf r ≠ "" →
      token_set_score desc (merchantOf r) ≤ (l.foldl (bestStep desc) b).1 := by
  intro l
  induction l with
  | nil => intro b r hr; exact absurd hr (List.not_mem_nil r)
  | cons x t ih =>
    intro b r hr hmer
    rcases List.mem_cons.mp hr with rfl | hrt
    · refine le_trans ?_ (foldl_bestStep_fst_le desc t (bestStep desc b r))
      simp only [bestStep]
      rw [if_neg hmer]
      split
      · exact le_refl _
      · rename_i hnlt
        exact le_of_not_lt hnlt
    · exact ih (bestStep desc b x) r hrt hmer

theorem foldl_bestStep_cases (desc : String) :
    ∀ (l : List MerchantRule) (b : ℕ × Option MerchantRule),
      l.foldl (bestStep desc) b = b
      ∨ ∃ r, r ∈ l ∧ merchantOf r ≠ ""
          ∧ l.foldl (bestStep desc) b = (token_set_score desc (merchantOf r), some r) := by
  intro l
  induction l with
  | nil => intro b; exact Or.inl rfl
  | cons x t ih =>
    intro b
    by_cases hm : merchantOf x = ""
    · have hstep : bestStep desc b x = b := by simp only [bestStep]; rw [if_pos hm]
      rw [List.foldl_cons, hstep]
      rcases ih b with h | ⟨r, hr, hmer, he⟩
      · exact Or.inl h
      · exact Or.inr ⟨r, List.mem_cons_of_mem x hr, hmer, he⟩
    · by_cases hlt : b.1 < token_set_score desc (merchantOf x)
      · have hstep : bestStep desc b x = (token_set_score desc (merchantOf x), some x) := by
          simp only [bestStep]
          rw [if_neg hm, if_pos hlt]
        rw [List.foldl_cons, hstep]
        rcases ih (token_set_score desc (merchantOf x), some x) with h | ⟨r, hr, hmer, he⟩
        · exact Or.inr ⟨x, List.mem_cons_self x t, hm, h⟩
        · exact Or.inr ⟨r, List.mem_cons_of_mem x hr, hmer, he⟩
      · have hstep : bestStep desc b x = b := by
          simp only [bestStep]
          rw [if_neg hm, if_neg hlt]
        rw [List.foldl_cons, hstep]
        rcases ih b with h | ⟨r, hr, hmer, he⟩
        · exact Or.inl h
        · exact Or.inr ⟨r, List.mem_cons_of_mem x hr, hmer, he⟩

theorem bestMatch_score_le (desc : String) (rules : List MerchantRule) (r : MerchantRule)
    (hr : r ∈ rules) (hmer : merchantOf r ≠ "") :
    token_set_score desc (merchantOf r) ≤ (bestMatch desc rules).1 :=
  foldl_bestStep_score_le desc rules (0, none) r hr hmer

theorem bestMatch_cases (desc : String) (rules : List MerchantRule) :
    bestMatch desc rules = (0, none)
    ∨ ∃ r, r ∈ rules ∧ merchantOf r ≠ ""
        ∧ bestMatch desc rules = (token_set_score desc (merchantOf r), some r) :=
  foldl_bestStep_cases desc rules (0, none)

theorem categorize_nil (description : String) (amount : ℚ) :
    categorize_transaction description amount [] = fallbackCategory description amount := rfl

theorem categorize_of_low (description : String) (amount : ℚ) (rules : List MerchantRule)
    (h : (bestMatch (lowerL description.toList).asString rules).1 < 70) :
    categorize_transaction description amount rules = fallbackCategory description amount := by
  simp only [categorize_transaction]
  split
  · rfl
  · rw [if_neg (not_le.mpr h)]

theorem categorize_of_match (description : String) (amount : ℚ) (rules : List MerchantRule)
    (hne : rules ≠ []) (r : MerchantRule)
    (h70 : 70 ≤ (bestMatch (lowerL description.toList).asString rules).1)
    (hro : (bestMatch (lowerL description.toList).asString rules).2 = some r) :
    categorize_transaction description amount rules
      = (r.category.getD "Misc", r.subcategory.getD "Yet to Name") := by
  simp only [categorize_transaction]
  rw [if_neg (by simp [List.isEmpty_iff, hne])]
  rw [if_pos h70]
  rw [hro]

theorem categorize_cases (description : String) (amount : ℚ) (rules : List MerchantRule) :
    categorize_transaction description amount rules = fallbackCategory description amount
    ∨ ∃ r, r ∈ rules ∧ categorize_transaction description amount rules
        = (r.category.getD "Misc", r.subcategory.getD "Yet to Name") := by
  by_cases hne : rules = []
  · subst hne
    exact Or.inl (categorize_nil description amount)
  · by_cases h70 : 70 ≤ (bestMatch (lowerL description.toList).asString rules).1
    · rcases bestMatch_cases (lowerL description.toList).asString rules with h0 | ⟨r, hr, hmer, he⟩
      · rw [h0] at h70
        exact absurd h70 (by omega)
      · refine Or.inr ⟨r, hr, ?_⟩
        apply categorize_of_match description amount rules hne r h70
        rw [he]
    · exact Or.inl (categorize_of_low description amount rules (not_le.mp h70))

theorem prefixAt_append_left :
    ∀ (n h1 : List Char), prefixAt n h1 = true →
      ∀ (h2 : List Char), prefixAt n (h1 ++ h2) = true := by
  intro n
  induction n with
  | nil => intro h1 _ h2; rfl
  | cons a as ih =>
    intro h1 hp h2
    cases h1 with
    | nil => simp [prefixAt] at hp
    | cons b bs =>
      simp only [prefixAt, Bool.and_eq_true] at hp
      simp only [List.cons_append, prefixAt, Bool.and_eq_true]
      exact ⟨hp.1, ih bs hp.2 h2⟩

theorem containsSub_of_prefixAt (n l : List Char) (h : prefixAt n l = true) :
    containsSub n l = true := by
  cases l with
  | nil =>
    cases n with
    | nil => rfl
    | cons a as => simp [prefixAt] at h
  | cons c t =>
    simp only [containsSub, Bool.or_eq_true]
    exact Or.inl h

theorem processMatch_of_selfTransfer (m : GMatch) (h : selfTransferMark m) :
    processMatch m = none := by
  have he : (m.type_str ++ " " ++ m.description_raw).toList
      = m.type_str.toList ++ ' ' :: m.description_raw.toList := by
    show (m.type_str ++ " " ++ m.description_raw).data = _
    rw [String.data_append, String.data_append]
    simp [String.toList, List.append_assoc]
  have hfc : despaceL (lowerL (m.type_str ++ " " ++ m.description_raw).toList)
      = despaceL (lowerL m.type_str.toList)
        ++ despaceL (lowerL (' ' :: m.description_raw.toList)) := by
    rw [he]
    unfold despaceL lowerL
    rw [List.map_append, List.filter_append]
  have hpre : prefixAt ("selftransfer".toList)
      (despaceL (lowerL (m.type_str ++ " " ++ m.description_raw).toList)) = true := by
    rw [hfc, h]
    apply prefixAt_append_left
    rfl
  simp only [processMatch]
  rw [if_pos (containsSub_of_prefixAt _ _ hpre)]

theorem processMatch_some (m : GMatch) (t : Txn) (h : processMatch m = some t) :
    0 < t.amount ∧ t.transaction_id = m.trans_id := by
  simp only [processMatch] at h
  split at h
  · exact absurd h (by simp)
  · split at h
    · exact absurd h (by simp)
    · split at h
      · exact absurd h (by simp)
      · split at h
        · exact absurd h (by simp)
        · split at h
          · exact absurd h (by simp)
          · split at h
            · exact absurd h (by simp)
            · rename_i hd hA hpos hlen hskip
              rw [Option.some_inj] at h
              subst h
              constructor
              · simpa using lt_of_not_le hpos
              · rfl

theorem mem_extract (ms : List GMatch) (t : Txn)
    (h : t ∈ extract_gpay_transactions_from_pdf ms) :
    ∃ m ∈ ms, processMatch m = some t := by
  simp only [extract_gpay_transactions_from_pdf] at h
  split at h
  · exact List.mem_filterMap.mp h
  · rw [mem_sortB] at h
    have h2 : t ∈ ms.filterMap processMatch :=
      (dedupGo_sublist _ _ _).subset h
    exact List.mem_filterMap.mp h2

theorem pipe_filter_map (c : List Txn) (rules : List MerchantRule) :
    ((c.map (fun t => (t, assignCategory t rules))).filter
        (fun p => decide (p.1.ttype = TType.Sent))).map (fun p => toExpenseRow p.1 p.2)
      = (c.filter (fun t => decide (t.ttype = TType.Sent))).map
          (fun t => toExpenseRow t (assignCategory t rules)) := by
  induction c with
  | nil => rfl
  | cons t ts ih =>
    simp only [List.map_cons, List.filter_cons]
    by_cases h : t.ttype = TType.Sent
    · simp [h, ih]
    · simp [h, ih]

theorem process_pdf_eq (docs : List (List GMatch)) (rules : List MerchantRule) :
    process_pdf_data docs rules
      = ((dedupById (combineDocs docs)).filter
            (fun t => decide (t.ttype = TType.Sent))).map
          (fun t => toExpenseRow t (assignCategory t rules)) := by
  simp only [process_pdf_data]
  split
  · rename_i hg
    have hc : combineDocs docs = [] := by
      unfold combineDocs
      rw [List.isEmpty_iff.mp hg]
      rfl
    rw [hc]
    rfl
  · exact pipe_filter_map _ _

theorem mem_process (docs : List (List GMatch)) (rules : List MerchantRule)
    (row : ExpenseRow) (h : row ∈ process_pdf_data docs rules) :
    ∃ t, (∃ m, (∃ d ∈ docs, m ∈ d) ∧ processMatch m = some t)
      ∧ t.ttype = TType.Sent ∧ row = toExpenseRow t (assignCategory t rules) := by
  rw [process_pdf_eq] at h
  obtain ⟨t, ht, he⟩ := List.mem_map.mp h
  obtain ⟨htc, hsent⟩ := List.mem_filter.mp ht
  have h1 : t ∈ combineDocs docs := (dedupGo_sublist _ _ _).subset htc
  unfold combineDocs at h1
  obtain ⟨df, hdf, htdf⟩ := List.mem_flatten.mp h1
  obtain ⟨hdfm, _⟩ := List.mem_filter.mp hdf
  obtain ⟨d, hd, hde⟩ := List.mem_map.mp hdfm
  rw [← hde] at htdf
  obtain ⟨m, hm, hpm⟩ := mem_extract d t htdf
  exact ⟨t, ⟨m, ⟨d, hd, hm⟩, hpm⟩, by simpa using hsent, he.symm⟩

theorem txnLeb_total (a b : Txn) : txnLeb a b = true ∨ txnLeb b a = true := by
  unfold txnLeb
  rcases Nat.le_total (dateKey a.date) (dateKey b.date) with h | h
  · exact Or.inl (by simpa using h)
  · exact Or.inr (by simpa using h)

theorem txnLeb_trans (a b c : Txn) (h1 : txnLeb a b = true) (h2 : txnLeb b c = true) :
    txnLeb a c = true := by
  unfold txnLeb at *
  simp only [decide_eq_true_eq] at *
  omega

theorem insertB_ne_nil {α : Type} (le : α → α → Bool) (a : α) (l : List α) :
    insertB le a l ≠ [] := by
  cases l with
  | nil => simp [insertB]
  | cons b bs =>
    simp only [insertB]
    split <;> simp

theorem rowsSorted_single (d : List GMatch) (rules : List MerchantRule) :
    rowsSorted (process_pdf_data [d] rules) = true := by
  rw [process_pdf_eq]
  by_cases hp : (d.filterMap processMatch).isEmpty = true
  · have hex : extract_gpay_transactions_from_pdf d = [] := by
      simp only [extract_gpay_transactions_from_pdf]
      rw [if_pos hp]
      exact List.isEmpty_iff.mp hp
    have hc : combineDocs [d] = [] := by
      unfold combineDocs
      rw [List.map_singleton, hex]
      rfl
    rw [hc]
    rfl
  · have hex : extract_gpay_transactions_from_pdf d
        = sortB txnLeb (dedupById (d.filterMap processMatch)) := by
      simp only [extract_gpay_transactions_from_pdf]
      rw [if_neg hp]
    have hnn : extract_gpay_transactions_from_pdf d ≠ [] := by
      rw [hex]
      have : d.filterMap processMatch ≠ [] := fun hc => hp (by simp [hc])
      cases hfm : d.filterMap processMatch with
      | nil => exact absurd hfm this
      | cons x xs =>
        have hdd : dedupById (x :: xs) = x :: dedupGo (fun t => t.transaction_id) [x.transaction_id] xs := by
          simp [dedupById, dedupKeepFirst, dedupGo]
        rw [hdd]
        simp only [sortB]
        exact insertB_ne_nil _ _ _
    have hne : (extract_gpay_transactions_from_pdf d).isEmpty = false := by
      simpa [List.isEmpty_iff] using hnn
    have hc : combineDocs [d] = extract_gpay_transactions_from_pdf d := by
      unfold combineDocs
      simp [hne]
    rw [hc, hex]
    have hsorted : (sortB txnLeb (dedupById (d.filterMap processMatch))).Pairwise
        (fun x y => txnLeb x y = true) :=
      pairwise_sortB txnLeb txnLeb_total txnLeb_trans _
    have hded : (dedupById (sortB txnLeb (dedupById (d.filterMap processMatch)))).Pairwise
        (fun x y => txnLeb x y = true) :=
      hsorted.sublist (dedupGo_sublist _ _ _)
    have hfil : ((dedupById (sortB txnLeb (dedupById (d.filterMap processMatch)))).filter
        (fun t => decide (t.ttype = TType.Sent))).Pairwise (fun x y => txnLeb x y = true) :=
      hded.sublist (List.filter_sublist _)
    unfold rowsSorted
    rw [List.map_map]
    apply sortedKeys_of_pairwise
    apply List.pairwise_map.mpr
    apply hfil.imp
    intro a b hab
    simpa [txnLeb, toExpenseRow] using hab

/-! ## Claim theorems -/

/-- C1: for every non-empty merchant rules table and every transaction handed
to the Categorizer, a lowercased token-set similarity score (at most 100) is
computed between the counterparty text and each rule's merchant field, the
scan keeps a rule achieving the maximal score, the rule's (category,
sub-category) pair is returned exactly when the best score reaches the
threshold 70, and below the threshold (or with an empty table) the result is
the fallback heuristics. -/
theorem C1_fuzzy_selection (description : String) (amount : ℚ)
    (rules : List MerchantRule) (hne : rules ≠ [])
    (s : ℕ) (ro : Option MerchantRule)
    (hb : bestMatch (lowerL description.toList).asString rules = (s, ro)) :
    (∀ a b : String, token_set_score a b ≤ 100) ∧
    (∀ r ∈ rules, merchantOf r ≠ "" →
      token_set_score (lowerL description.toList).asString (merchantOf r) ≤ s) ∧
    (∀ r, ro = some r → r ∈ rules
      ∧ token_set_score (lowerL description.toList).asString (merchantOf r) = s) ∧
    (70 ≤ s → ∃ r, r ∈ rules ∧ ro = some r
      ∧ categorize_transaction description amount rules
          = (r.category.getD "Misc", r.subcategory.getD "Yet to Name")) ∧
    (s < 70 → categorize_transaction description amount rules
        = fallbackCategory description amount) ∧
    categorize_transaction description amount [] = fallbackCategory description amount := by
  refine ⟨token_set_score_le_100, ?_, ?_, ?_, ?_, categorize_nil description amount⟩
  · intro r hr hm
    have h := bestMatch_score_le (lowerL description.toList).asString rules r hr hm
    rw [hb] at h
    exact h
  · intro r hro
    rcases bestMatch_cases (lowerL description.toList).asString rules with h0 | ⟨r2, hr2, hm2, he2⟩
    · rw [h0] at hb
      have : ro = none := (Prod.mk.injEq _ _ _ _).mp hb.symm |>.2
      rw [this] at hro
      exact absurd hro (by simp)
    · rw [he2] at hb
      obtain ⟨hs, hr⟩ := (Prod.mk.injEq _ _ _ _).mp hb
      rw [← hr] at hro
      have hrr : r2 = r := by simpa using hro
      rw [← hrr, hs]
      exact ⟨hr2, rfl⟩
  · intro h70
    rcases bestMatch_cases (lowerL description.toList).asString rules with h0 | ⟨r2, hr2, hm2, he2⟩
    · rw [h0] at hb
      have h00 : (0 : ℕ) = s := ((Prod.mk.injEq _ _ _ _).mp hb).1
      omega
    · rw [he2] at hb
      obtain ⟨hs, hr⟩ := (Prod.mk.injEq _ _ _ _).mp hb
      refine ⟨r2, hr2, hr.symm, ?_⟩
      apply categorize_of_match description amount rules hne r2
      · rw [he2]
        exact hs ▸ h70
      · rw [he2]
  · intro hlow
    apply categorize_of_low description amount rules
    rw [hb]
    exact hlow

/-- Closed instance of C1 at a one-rule table whose merchant equals the
counterparty text, discharging the hypotheses concretely. -/
theorem C1_fuzzy_selection_witness :
    (([⟨some "acme", some "Food", some "Pizza"⟩] : List MerchantRule) ≠ []) ∧
    bestMatch (lowerL ("acme" : String).toList).asString
        [⟨some "acme", some "Food", some "Pizza"⟩]
      = (100, some ⟨some "acme", some "Food", some "Pizza"⟩) ∧
    ((∀ a b : String, token_set_score a b ≤ 100) ∧
     (∀ r ∈ ([⟨some "acme", some "Food", some "Pizza"⟩] : List MerchantRule),
        merchantOf r ≠ "" →
        token_set_score (lowerL ("acme" : String).toList).asString (merchantOf r) ≤ 100) ∧
     (∀ r, (some ⟨some "acme", some "Food", some "Pizza"⟩ : Option MerchantRule) = some r →
        r ∈ ([⟨some "acme", some "Food", some "Pizza"⟩] : List MerchantRule)
        ∧ token_set_score (lowerL ("acme" : String).toList).asString (merchantOf r) = 100) ∧
     (70 ≤ 100 → ∃ r, r ∈ ([⟨some "acme", some "Food", some "Pizza"⟩] : List MerchantRule)
        ∧ (some ⟨some "acme", some "Food", some "Pizza"⟩ : Option MerchantRule) = some r
        ∧ categorize_transaction "acme" 5 [⟨some "acme", some "Food", some "Pizza"⟩]
            = (r.category.getD "Misc", r.subcategory.getD "Yet to Name")) ∧
     ((100 : ℕ) < 70 → categorize_transaction "acme" 5 [⟨some "acme", some "Food", some "Pizza"⟩]
          = fallbackCategory "acme" 5) ∧
     categorize_transaction "acme" 5 [] = fallbackCategory "acme" 5) :=
  ⟨by decide, by decide,
   C1_fuzzy_selection "acme" 5 [⟨some "acme", some "Food", some "Pizza"⟩] (by decide)
     100 (some ⟨some "acme", some "Food", some "Pizza"⟩) (by decide)⟩

/-- C2: in the categorization pass of process_pdf_data, every record whose
direction is Received is assigned category Income and sub-category Received,
for every merchant rules table, without consulting the merchant matching. -/
theorem C2_income_short_circuit (ts : List Txn) (rules : List MerchantRule)
    (t : Txn) (c sc : String)
    (hm : (t, (c, sc)) ∈ ts.map (fun t => (t, assignCategory t rules)))
    (hr : t.ttype = TType.Received) : c = "Income" ∧ sc = "Received" := by
  obtain ⟨t2, ht2, he⟩ := List.mem_map.mp hm
  obtain ⟨he1, he2⟩ := (Prod.mk.injEq _ _ _ _).mp he
  rw [he1] at he2
  unfold assignCategory at he2
  rw [if_pos hr] at he2
  obtain ⟨hc, hsc⟩ := (Prod.mk.injEq _ _ _ _).mp he2
  exact ⟨hc.symm, hsc.symm⟩

/-- Closed instance of C2 on a concrete Received record with an empty table. -/
theorem C2_income_short_circuit_witness :
    ((⟨⟨2025, 1, 1⟩, "Salary", 500, TType.Received, "1", "Unknown"⟩ : Txn),
        (("Income" : String), ("Received" : String)))
      ∈ ([(⟨⟨2025, 1, 1⟩, "Salary", 500, TType.Received, "1", "Unknown"⟩ : Txn)]).map
          (fun t => (t, assignCategory t []))
    ∧ ("Income" : String) = "Income" ∧ ("Received" : String) = "Received" :=
  ⟨by decide,
   C2_income_short_circuit [⟨⟨2025, 1, 1⟩, "Salary", 500, TType.Received, "1", "Unknown"⟩] []
     ⟨⟨2025, 1, 1⟩, "Salary", 500, TType.Received, "1", "Unknown"⟩ "Income" "Received"
     (by decide) (by decide)⟩

/-- C3: both deduplication branches keep, for every key value, exactly the
first-seen record among those sharing that key: filtering the deduplicated
list to one transaction id (or one date, counterparty and amount triple)
yields the first element of the corresponding filter of the input. -/
theorem C3_dedup_first_seen :
    (∀ (ts : List Txn) (k : String),
      (dedupById ts).filter (fun t => decide (t.transaction_id = k))
        = ((ts.filter (fun t => decide (t.transaction_id = k))).take 1)) ∧
    (∀ (ts : List Txn) (p : EDate × String × ℚ),
      (dedupByComposite ts).filter (fun t => decide ((t.date, t.description, t.amount) = p))
        = ((ts.filter (fun t => decide ((t.date, t.description, t.amount) = p))).take 1)) := by
  constructor
  · intro ts k
    have h := dedupGo_filter (fun t : Txn => t.transaction_id) k ts []
    simpa [dedupById, dedupKeepFirst] using h
  · intro ts p
    have h := dedupGo_filter (fun t : Txn => (t.date, t.description, t.amount)) p ts []
    simpa [dedupByComposite, dedupKeepFirst] using h

/-- C4: every row of the table returned by process_pdf_data has a strictly
positive amount: non-positive parsed amounts are rejected in processMatch and
never reach the output. -/
theorem C4_amount_positive (docs : List (List GMatch)) (rules : List MerchantRule)
    (row : ExpenseRow) (h : row ∈ process_pdf_data docs rules) : 0 < row.amount := by
  obtain ⟨t, ⟨m, _, hpm⟩, _, he⟩ := mem_process docs rules row h
  have hpos := (processMatch_some m t hpm).1
  rw [he]
  exact hpos

/-- Closed instance of C4 on a one-document run producing one row. -/
theorem C4_amount_positive_witness :
    ((⟨⟨2024, 3, 12⟩, "Quick Mart", 240, "777", "HDFC 1", "Misc", "Yet to Name"⟩ : ExpenseRow)
        ∈ process_pdf_data [[⟨"12 Mar, 2024", "Paid to", "Quick Mart", "240", "777", "HDFC 1"⟩]] [])
    ∧ (0 : ℚ) <
        (⟨⟨2024, 3, 12⟩, "Quick Mart", 240, "777", "HDFC 1", "Misc", "Yet to Name"⟩ : ExpenseRow).amount :=
  ⟨by decide,
   C4_amount_positive [[⟨"12 Mar, 2024", "Paid to", "Quick Mart", "240", "777", "HDFC 1"⟩]] []
     ⟨⟨2024, 3, 12⟩, "Quick Mart", 240, "777", "HDFC 1", "Misc", "Yet to Name"⟩ (by decide)⟩

/-- C5 (amended): a match whose direction marker is the self-transfer phrase
written with spaces (the shape the line 58 check catches, case-insensitive,
ignoring embedded space characters) is rejected by processMatch, and every
record of the extractor's output originates from a match not carrying such a
marker; markers containing other whitespace escape the check (see the
counterexample). -/
theorem C5_self_transfer_excluded :
    (∀ m : GMatch, selfTransferMark m → processMatch m = none) ∧
    (∀ (ms : List GMatch) (t : Txn), t ∈ extract_gpay_transactions_from_pdf ms →
      ∃ m ∈ ms, ¬ selfTransferMark m ∧ processMatch m = some t) := by
  constructor
  · exact processMatch_of_selfTransfer
  · intro ms t ht
    obtain ⟨m, hm, hpm⟩ := mem_extract ms t ht
    refine ⟨m, hm, ?_, hpm⟩
    intro hmark
    rw [processMatch_of_selfTransfer m hmark] at hpm
    exact absurd hpm (by simp)

/-- C5 counterexample: the regex marker alternative also matches the
self-transfer phrase written with newlines, but the skip check removes only
space characters, so this match is not rejected: it is parsed as a Sent
record and its date, counterparty and amount combination appears in the
final table, refuting the original claim for markers with arbitrary
embedded whitespace. -/
theorem C5_counterexample :
    processMatch ⟨"2 Jan, 2025", "Self\ntransfer\nto", "My Account", "500", "88", ""⟩
        = some ⟨⟨2025, 1, 2⟩, "My Account", 500, TType.Sent, "88", "Unknown"⟩
    ∧ (process_pdf_data
          [[⟨"2 Jan, 2025", "Self\ntransfer\nto", "My Account", "500", "88", ""⟩]] []).map
          (fun r => (dateKey r.date, r.description, r.amount))
        = [(20250102, "My Account", (500 : ℚ))]
    ∧ ¬ selfTransferMark ⟨"2 Jan, 2025", "Self\ntransfer\nto", "My Account", "500", "88", ""⟩ := by
  refine ⟨by decide, by decide, ?_⟩
  unfold selfTransferMark
  decide

/-- Closed instance of C5 on a concrete self-transfer match. -/
theorem C5_self_transfer_excluded_witness :
    selfTransferMark ⟨"1 Jan, 2025", "Self transfer to", "My Account", "500", "77", ""⟩
    ∧ processMatch ⟨"1 Jan, 2025", "Self transfer to", "My Account", "500", "77", ""⟩ = none :=
  ⟨by unfold selfTransferMark; decide,
   C5_self_transfer_excluded.1 ⟨"1 Jan, 2025", "Self transfer to", "My Account", "500", "77", ""⟩
     (by unfold selfTransferMark; decide)⟩

/-- C6: when the fuzzy lookup does not settle a transaction (empty table or
best score below 70), the Categorizer returns Transport with sub-category
Metro for a metro or rail-authority keyword, Train for a railway keyword, and
Auto otherwise whenever the amount lies in the closed interval 15 to 50 or a
transport keyword occurs in the lowered counterparty text; in every other
case it returns the Misc sentinel pair. -/
theorem C6_fallback_heuristics (description : String) (amount : ℚ)
    (rules : List MerchantRule)
    (h : rules = [] ∨ (bestMatch (lowerL description.toList).asString rules).1 < 70) :
    categorize_transaction description amount rules =
      (if (decide ((15 : ℚ) ≤ amount) && decide (amount ≤ (50 : ℚ)))
          || transport_keywords.any (fun kw => containsSub kw.toList (lowerL description.toList)) then
        if (["metro", "mmrda"] : List String).any
            (fun kw => containsSub kw.toList (lowerL description.toList)) then
          ("Transport", "Metro")
        else if (["railway", "irctc", "train"] : List String).any
            (fun kw => containsSub kw.toList (lowerL description.toList)) then
          ("Transport", "Train")
        else ("Transport", "Auto")
      else ("Misc", "Yet to Name")) := by
  have hfb : categorize_transaction description amount rules
      = fallbackCategory description amount := by
    rcases h with h | h
    · rw [h]
      exact categorize_nil description amount
    · exact categorize_of_low description amount rules h
  rw [hfb]
  rfl

/-- Closed instance of C6: empty table, amount inside the small-fare range and
no transport keyword, giving the Transport and Auto pair. -/
theorem C6_fallback_heuristics_witness :
    (([] : List MerchantRule) = [] ∨ (bestMatch (lowerL ("Cafe X" : String).toList).asString []).1 < 70)
    ∧ categorize_transaction "Cafe X" 20 [] =
      (if (decide ((15 : ℚ) ≤ (20 : ℚ)) && decide ((20 : ℚ) ≤ (50 : ℚ)))
          || transport_keywords.any (fun kw => containsSub kw.toList (lowerL ("Cafe X" : String).toList)) then
        if (["metro", "mmrda"] : List String).any
            (fun kw => containsSub kw.toList (lowerL ("Cafe X" : String).toList)) then
          ("Transport", "Metro")
        else if (["railway", "irctc", "train"] : List String).any
            (fun kw => containsSub kw.toList (lowerL ("Cafe X" : String).toList)) then
          ("Transport", "Train")
        else ("Transport", "Auto")
      else ("Misc", "Yet to Name")) :=
  ⟨Or.inl rfl, C6_fallback_heuristics "Cafe X" 20 [] (Or.inl rfl)⟩

/-- C7 (amended): process_pdf_data returns exactly the Sent records surviving
the cross-document deduplication, each carrying its assigned category pair,
with the direction column dropped and no time column; for a single document
the output is date-ascending, while a multi-document run only concatenates
the per-document tables in document order without a global re-sort. -/
theorem C7_pipeline :
    (∀ (docs : List (List GMatch)) (rules : List MerchantRule),
      process_pdf_data docs rules
        = ((dedupById (combineDocs docs)).filter
              (fun t => decide (t.ttype = TType.Sent))).map
            (fun t => toExpenseRow t (assignCategory t rules))) ∧
    (∀ (d : List GMatch) (rules : List MerchantRule),
      rowsSorted (process_pdf_data [d] rules) = true) :=
  ⟨process_pdf_eq, rowsSorted_single⟩

/-- C7 counterexample: two documents whose date ranges are out of order give a
combined table that is not date-ascending, refuting a single collection
ordered by date ascending. -/
theorem C7_counterexample :
    rowsSorted (process_pdf_data
        [[⟨"5 Oct, 2025", "Paid to", "Alpha Store", "100", "111", ""⟩],
         [⟨"1 Jan, 2025", "Paid to", "Beta Mart", "200", "222", ""⟩]] []) = false := by
  decide

/-- C8: parse_time_to_hour applies the PM shift without any range check, so a
meridiem token with hour 13 yields 25, outside the documented 0 to 23 range. -/
theorem C8_meridiem_overflow :
    parse_time_to_hour (some "13:45 PM") = 25 ∧ ¬ (25 ≤ 23) := by
  constructor
  · decide
  · omega

/-- C9 counterexample: a rules table row with an empty Category value is
passed through on a fuzzy match, producing an output expense row whose
category is the empty string. -/
theorem C9_counterexample :
    (process_pdf_data [[⟨"3 Apr, 2025", "Paid to", "acme", "100", "42", ""⟩]]
        [⟨some "acme", some "", some "s"⟩]).map (fun r => r.category) = [""] := by
  decide

/-- C9 (amended): provided no rule carries an empty Category value, every
output expense row has a non-empty category; an absent Category column
defaults to the Misc sentinel and the fallback tiers are never empty. -/
theorem C9_category_nonempty (docs : List (List GMatch)) (rules : List MerchantRule)
    (hr : ∀ r ∈ rules, r.category ≠ some "") (row : ExpenseRow)
    (h : row ∈ process_pdf_data docs rules) : row.category ≠ "" := by
  obtain ⟨t, _, hsent, he⟩ := mem_process docs rules row h
  rw [he]
  show (assignCategory t rules).1 ≠ ""
  unfold assignCategory
  split
  · simp
  · rcases categorize_cases t.description t.amount rules with hc | ⟨r, hrr, hc⟩
    · rw [hc]
      simp only [fallbackCategory]
      split
      · split
        · simp
        · split
          · simp
          · simp
      · simp
    · rw [hc]
      cases hcat : r.category with
      | none => simp
      | some v =>
        simp only [Option.getD_some]
        intro hv
        exact hr r hrr (by rw [hcat, hv])

/-- Closed instance of C9 (amended) on a run with an empty rules table. -/
theorem C9_category_nonempty_witness :
    (∀ r ∈ ([] : List MerchantRule), r.category ≠ some "")
    ∧ ((⟨⟨2025, 5, 9⟩, "Toy Store", 300, "31", "Unknown", "Misc", "Yet to Name"⟩ : ExpenseRow)
        ∈ process_pdf_data [[⟨"9 May, 2025", "Paid to", "Toy Store", "300", "31", ""⟩]] [])
    ∧ (⟨⟨2025, 5, 9⟩, "Toy Store", 300, "31", "Unknown", "Misc", "Yet to Name"⟩ : ExpenseRow).category ≠ "" :=
  ⟨by simp,
   by decide,
   C9_category_nonempty [[⟨"9 May, 2025", "Paid to", "Toy Store", "300", "31", ""⟩]] []
     (by simp)
     ⟨⟨2025, 5, 9⟩, "Toy Store", 300, "31", "Unknown", "Misc", "Yet to Name"⟩ (by decide)⟩

/-- C10: under the shape guaranteed by the extraction pattern (the UPI
Transaction ID group captures one or more digits), every record the extractor
emits has a non-empty, all-digit transaction id. -/
theorem C10_transaction_id_digits (ms : List GMatch)
    (h : ∀ m ∈ ms, idGroupOK m.trans_id = true) (t : Txn)
    (ht : t ∈ extract_gpay_transactions_from_pdf ms) :
    t.transaction_id ≠ "" ∧ allDigits t.transaction_id.toList = true := by
  obtain ⟨m, hm, hpm⟩ := mem_extract ms t ht
  have hid := (processMatch_some m t hpm).2
  have hok := h m hm
  unfold idGroupOK at hok
  rw [Bool.and_eq_true] at hok
  constructor
  · intro hempty
    rw [hid] at hempty
    have : m.trans_id.toList.isEmpty = true := by
      rw [hempty]
      rfl
    rw [this] at hok
    simp at hok
  · rw [hid]
    exact hok.2

/-- Closed instance of C10 on a one-match extraction. -/
theorem C10_transaction_id_digits_witness :
    (∀ m ∈ ([⟨"7 Feb, 2025", "Paid to", "Book Shop", "99", "55221", ""⟩] : List GMatch),
      idGroupOK m.trans_id = true)
    ∧ ((⟨⟨2025, 2, 7⟩, "Book Shop", 99, TType.Sent, "55221", "Unknown"⟩ : Txn)
        ∈ extract_gpay_transactions_from_pdf
            [⟨"7 Feb, 2025", "Paid to", "Book Shop", "99", "55221", ""⟩])
    ∧ (⟨⟨2025, 2, 7⟩, "Book Shop", 99, TType.Sent, "55221", "Unknown"⟩ : Txn).transaction_id ≠ ""
    ∧ allDigits (⟨⟨2025, 2, 7⟩, "Book Shop", 99, TType.Sent, "55221", "Unknown"⟩ : Txn).transaction_id.toList = true :=
  ⟨by decide, by decide,
   (C10_transaction_id_digits [⟨"7 Feb, 2025", "Paid to", "Book Shop", "99", "55221", ""⟩]
     (by decide) ⟨⟨2025, 2, 7⟩, "Book Shop", 99, TType.Sent, "55221", "Unknown"⟩ (by decide)).1,
   (C10_transaction_id_digits [⟨"7 Feb, 2025", "Paid to", "Book Shop", "99", "55221", ""⟩]
     (by decide) ⟨⟨2025, 2, 7⟩, "Book Shop", 99, TType.Sent, "55221", "Unknown"⟩ (by decide)).2⟩
